import Mathlib

/-!
Shallow embedding of the hyperfine benchmark orchestrator (`src/main.rs`)
and of the collaborator modules it calls, for checking the specification's
claims about the comparison step and the benchmark run loop.

Durations and `f64` means are modelled as rationals (`ℚ`); the numeric
square root used only inside standard-deviation propagation is modelled by
`Rat.sqrt` (its value is irrelevant to every property proved here).
External collaborators whose source is not part of this repository snapshot
(the benchmark runner, the shell-spawn calibrator, the export manager) are
injected as an explicit environment, following the spec's own design note
that process invocation is an injectable capability.
-/

/-- Output style configuration, from the spec's `Options` interface:
`{Full, Basic, NoWarnings, Disabled}`. -/
inductive OutputStyleOption where
  | Full
  | Basic
  | NoWarnings
  | Disabled
deriving DecidableEq

/-- Modelled from the spec: `BenchmarkResult` is the aggregate for one
command (the defining module `benchmark::result` is not in this snapshot).
Durations are rationals; `stddev` is `none` when fewer than 2 samples
exist; exit codes are optional integers. -/
structure BenchmarkResult where
  command : String
  mean : ℚ
  stddev : Option ℚ
  median : ℚ
  user_mean : ℚ
  system_mean : ℚ
  min : ℚ
  max : ℚ
  raw_times : List ℚ
  exit_codes : List (Option Int)
  parameter_values : List (String × String)
deriving DecidableEq

/-- Modelled from the spec: `AnnotatedResult` wraps a `BenchmarkResult`
with the relative speed against the fastest command of the batch. -/
structure AnnotatedResult where
  result : BenchmarkResult
  relative_speed : ℚ
  relative_speed_stddev : Option ℚ
deriving DecidableEq

namespace relative_speed

/-- Modelled from the spec: find the result with minimum mean time
(the `relative_speed` module is not in this snapshot). A left fold keeps
the first result on ties, and the empty batch has no fastest element. -/
def fastest_of : List BenchmarkResult → Option BenchmarkResult
  | [] => none
  | r :: rs => some (rs.foldl (fun best x => if x.mean < best.mean then x else best) r)

/-- Modelled from the spec: annotate one result against the fastest of the
batch, with `relative_speed = result.mean / fastest.mean` and relative-error
composition for the propagated standard deviation (available only when both
standard deviations are). -/
def annotate (fastest r : BenchmarkResult) : AnnotatedResult :=
  { result := r
    relative_speed := r.mean / fastest.mean
    relative_speed_stddev :=
      match r.stddev, fastest.stddev with
      | some s, some sf =>
          some ((r.mean / fastest.mean) * Rat.sqrt ((s / r.mean) ^ 2 + (sf / fastest.mean) ^ 2))
      | _, _ => none }

/-- Modelled from the spec: `compute` returns `none` when the fastest
command's mean is exactly zero, otherwise annotates every result of the
batch, in input order. -/
def compute (results : List BenchmarkResult) : Option (List AnnotatedResult) :=
  match fastest_of results with
  | none => none
  | some fastest =>
      if fastest.mean = 0 then none
      else some (results.map (annotate fastest))

/-- Modelled from the spec: `compare_mean_time` orders annotated results
ascending by mean time; this is the boolean form fed to the stable sort. -/
def mean_le (l r : AnnotatedResult) : Bool :=
  decide (l.result.mean ≤ r.result.mean)

end relative_speed

/-- The console output of the comparison step, abstracting the `println!`
calls of `write_benchmark_comparison`: either nothing (fewer than two
results), a summary over the displayed (sorted) annotated results, or the
diagnostic note printed when the comparison is not computable. -/
inductive ComparisonOutput where
  | noOutput
  | summary (displayed : List AnnotatedResult)
  | zeroMeanNote
deriving DecidableEq

/-- Embedding of `write_benchmark_comparison` (`src/main.rs`): an early
return when fewer than two results are supplied; otherwise the annotated
results of `relative_speed::compute` are sorted stably by mean time and
printed as a summary, and when `compute` is `none` the diagnostic note is
printed instead. Rust's stable `sort_by` is modelled by `List.mergeSort`. -/
def write_benchmark_comparison (results : List BenchmarkResult) : ComparisonOutput :=
  if results.length < 2 then ComparisonOutput.noOutput
  else
    match relative_speed.compute results with
    | some annotated_results =>
        ComparisonOutput.summary (annotated_results.mergeSort relative_speed.mean_le)
    | none => ComparisonOutput.zeroMeanNote

/-- Errors of the orchestrator: the `bail!` for a preparation-command count
mismatch, and opaque errors propagated from the external collaborators
(calibration, benchmark runner, export manager). -/
inductive HfError where
  | prepareCountMismatch
  | external (msg : String)
deriving DecidableEq

/-- The slice of `Options` that `run_benchmarks_and_print_comparison`
reads: shell, output style, show-output flag and the optional list of
preparation commands (the `options` module is not in this snapshot; fields
follow the spec's `Options` interface). -/
structure Options where
  shell : String
  show_output : Bool
  output_style : OutputStyleOption
  preparation_command : Option (List String)

/-- Observable calls made by the orchestrator, in program order: the
shell-spawn calibration result, each benchmark-runner invocation (with the
calibration value it receives), each call to the export manager (with the
full list of results it is given), and the comparison printout. -/
inductive Event where
  | calibrate (t : ℚ)
  | runBenchmark (num : Nat) (cmd : String) (shell_spawning_time : ℚ)
  | exportResults (results : List BenchmarkResult)
  | printComparison (out : ComparisonOutput)
deriving DecidableEq

/-- The injected external collaborators of `run_benchmarks_and_print_comparison`:
`mean_shell_spawning_time` (the calibrator), `run_benchmark` (the benchmark
runner, taking the command index, the command, the calibrated shell-spawn
time and the options) and `ExportManager::write_results`. All are fallible. -/
structure Env where
  mean_shell_spawning_time : String → OutputStyleOption → Bool → Except HfError ℚ
  run_benchmark : Nat → String → ℚ → Options → Except HfError BenchmarkResult
  write_results : List BenchmarkResult → Except HfError Unit

/-- The guard of the `bail!` in `run_benchmarks_and_print_comparison`
(`src/main.rs`): more than one preparation command was supplied and the
count differs from the number of benchmark commands. -/
def prepare_count_mismatch (options : Options) (commands : List String) : Bool :=
  match options.preparation_command with
  | some preparation_command =>
      preparation_command.length > 1 && commands.length != preparation_command.length
  | none => false

/-- Embedding of the benchmark `for` loop of
`run_benchmarks_and_print_comparison` (`src/main.rs`): for each command, in
order, run its benchmark with the `?` operator (an error aborts the loop),
append its result, and hand the accumulated results to the export manager
(again aborting on error). The trace records each collaborator call. -/
def benchLoop (env : Env) (options : Options) (t : ℚ) :
    Nat → List String → List BenchmarkResult → List Event →
    List Event × Except HfError (List BenchmarkResult)
  | _, [], acc, tr => (tr, Except.ok acc)
  | num, cmd :: rest, acc, tr =>
    match env.run_benchmark num cmd t options with
    | Except.error e => (tr ++ [Event.runBenchmark num cmd t], Except.error e)
    | Except.ok r =>
      match env.write_results (acc ++ [r]) with
      | Except.error e =>
          (tr ++ [Event.runBenchmark num cmd t, Event.exportResults (acc ++ [r])],
            Except.error e)
      | Except.ok _ =>
          benchLoop env options t (num + 1) rest (acc ++ [r])
            (tr ++ [Event.runBenchmark num cmd t, Event.exportResults (acc ++ [r])])

/-- Embedding of `run_benchmarks_and_print_comparison` (`src/main.rs`):
calibrate the shell-spawn time once, check the preparation-command count,
run the benchmark loop, and finally print the comparison unless the output
style is `Disabled`. Returns the trace of collaborator calls together with
the `Result` of the function. -/
def run_benchmarks_and_print_comparison (env : Env) (commands : List String)
    (options : Options) : List Event × Except HfError Unit :=
  match env.mean_shell_spawning_time options.shell options.output_style options.show_output with
  | Except.error e => ([], Except.error e)
  | Except.ok shell_spawning_time =>
    if prepare_count_mismatch options commands then
      ([Event.calibrate shell_spawning_time], Except.error HfError.prepareCountMismatch)
    else
      match benchLoop env options shell_spawning_time 0 commands []
          [Event.calibrate shell_spawning_time] with
      | (tr, Except.error e) => (tr, Except.error e)
      | (tr, Except.ok timing_results) =>
        if options.output_style != OutputStyleOption.Disabled then
          (tr ++ [Event.printComparison (write_benchmark_comparison timing_results)],
            Except.ok ())
        else (tr, Except.ok ())

namespace aggregation

/-- Modelled from the spec: the mean of the retained wall-time samples
(the aggregation step of the benchmark runner is not in this snapshot). -/
def sampleMean (times : List ℚ) : ℚ := times.sum / times.length

/-- The samples in ascending order, as used by the median computation. -/
def sortedTimes (times : List ℚ) : List ℚ :=
  times.mergeSort (fun a b => decide (a ≤ b))

/-- Modelled from the spec: the median of the retained samples — the middle
element of the sorted sequence for an odd count, the average of the two
middle elements for an even count. -/
def sampleMedian (times : List ℚ) : ℚ :=
  let s := sortedTimes times
  if times.length % 2 = 1 then s.getD (times.length / 2) 0
  else (s.getD (times.length / 2 - 1) 0 + s.getD (times.length / 2) 0) / 2

/-- Modelled from the spec: the Min/Max tracker's running minimum, a pure
fold over the duration sequence (zero on the empty sequence, which the
aggregation step never passes). -/
def sampleMin : List ℚ → ℚ
  | [] => 0
  | x :: xs => xs.foldl min x

/-- Modelled from the spec: the Min/Max tracker's running maximum. -/
def sampleMax : List ℚ → ℚ
  | [] => 0
  | x :: xs => xs.foldl max x

/-- Modelled from the spec: the sample standard deviation, absent when
fewer than two samples exist (the numeric square root is `Rat.sqrt`; its
value plays no role in the properties below). -/
def sampleStddev (times : List ℚ) : Option ℚ :=
  if times.length < 2 then none
  else some (Rat.sqrt ((times.map (fun x => (x - sampleMean times) ^ 2)).sum /
    (times.length - 1)))

/-- Modelled from the spec: aggregation of one command's retained samples
into a `BenchmarkResult`; with zero samples the engine fails rather than
producing a degenerate result. CPU-time means are aggregated from their own
sample streams. -/
def aggregate (cmd : String) (times user_times system_times : List ℚ)
    (exit_codes : List (Option Int)) (parameter_values : List (String × String)) :
    Option BenchmarkResult :=
  if times.isEmpty then none
  else some
    { command := cmd
      mean := sampleMean times
      stddev := sampleStddev times
      median := sampleMedian times
      user_mean := sampleMean user_times
      system_mean := sampleMean system_times
      min := sampleMin times
      max := sampleMax times
      raw_times := times
      exit_codes := exit_codes
      parameter_values := parameter_values }

end aggregation

/-- The expected trace of the benchmark loop when every collaborator call
succeeds: starting at index `num` with already-accumulated results `acc`,
each command produces its benchmark-runner call immediately followed by an
export of all results produced so far. -/
def runTrace (t : ℚ) : Nat → List BenchmarkResult → List String → List BenchmarkResult →
    List Event
  | _, _, [], _ => []
  | _, _, _ :: _, [] => []
  | num, acc, cmd :: cmds, r :: rs =>
      Event.runBenchmark num cmd t :: Event.exportResults (acc ++ [r]) ::
        runTrace t (num + 1) (acc ++ [r]) cmds rs

/-- The sequence of result lists handed to the export manager, in trace
order. -/
def exportsOf (trace : List Event) : List (List BenchmarkResult) :=
  trace.filterMap (fun e =>
    match e with
    | Event.exportResults rs => some rs
    | _ => none)

/-- Whether an event is the shell-spawn calibration. -/
def isCalibration (e : Event) : Bool :=
  match e with
  | Event.calibrate _ => true
  | _ => false

/-- Whether an event is the benchmark-runner call for command index `num`. -/
def isRunOf (num : Nat) (e : Event) : Bool :=
  match e with
  | Event.runBenchmark n _ _ => n == num
  | _ => false

/-- Whether an event is the comparison printout. -/
def isPrint (e : Event) : Bool :=
  match e with
  | Event.printComparison _ => true
  | _ => false

/-- A degenerate single-sample result used to instantiate theorems at
concrete inputs. -/
def mkResult (cmd : String) (m : ℚ) : BenchmarkResult :=
  { command := cmd
    mean := m
    stddev := none
    median := m
    user_mean := m
    system_mean := m
    min := m
    max := m
    raw_times := [m]
    exit_codes := [some 0]
    parameter_values := [] }

/-- Concrete options with full output and no preparation commands. -/
def optsFull : Options :=
  { shell := ("sh")
    show_output := false
    output_style := OutputStyleOption.Full
    preparation_command := none }

/-- Concrete options with output disabled. -/
def optsDisabled : Options :=
  { optsFull with output_style := OutputStyleOption.Disabled }

/-- Concrete options supplying two preparation commands. -/
def optsPrepTwo : Options :=
  { optsFull with preparation_command := some [("p1"), ("p2")] }

/-- A concrete environment in which every collaborator call succeeds:
calibration yields `1/100`, and command number `num` benchmarks to a result
with mean `num + 1`. -/
def okEnv : Env :=
  { mean_shell_spawning_time := fun _ _ _ => Except.ok (1 / 100)
    run_benchmark := fun num cmd _ _ => Except.ok (mkResult cmd ((num : ℚ) + 1))
    write_results := fun _ => Except.ok () }

/-- A concrete environment in which the benchmark of command number `0`
fails (for example, its command exits non-zero under fail-on-error) and
every other collaborator call succeeds. -/
def failFirstEnv : Env :=
  { okEnv with
    run_benchmark := fun num cmd _ _ =>
      if num = 0 then Except.error (HfError.external ("command failed"))
      else Except.ok (mkResult cmd ((num : ℚ) + 1)) }

/-- The results `okEnv` produces for the two commands `a` and `b`. -/
def okResults : List BenchmarkResult :=
  [mkResult ("a") (((0 : Nat) : ℚ) + 1), mkResult ("b") (((1 : Nat) : ℚ) + 1)]

/-- A concrete two-result batch with means 2 and 1. -/
def twoBatch : List BenchmarkResult := [mkResult ("a") 2, mkResult ("b") 1]

/-- The annotation of `twoBatch` against its fastest member. -/
def twoAnnotated : List AnnotatedResult :=
  [relative_speed.annotate (mkResult ("b") 1) (mkResult ("a") 2),
    relative_speed.annotate (mkResult ("b") 1) (mkResult ("b") 1)]

/-- The fold used by `fastest_of` yields either its initial value or a list
member. -/
theorem fastestFold_mem (rs : List BenchmarkResult) :
    ∀ best : BenchmarkResult,
      rs.foldl (fun best x => if x.mean < best.mean then x else best) best = best ∨
      rs.foldl (fun best x => if x.mean < best.mean then x else best) best ∈ rs := by
  induction rs with
  | nil => intro best; left; rfl
  | cons r rs ih =>
    intro best
    rcases ih (if r.mean < best.mean then r else best) with h | h
    · rw [List.foldl_cons, h]
      split
      · right; exact List.mem_cons_self _ _
      · left; rfl
    · right
      rw [List.foldl_cons]
      exact List.mem_cons_of_mem _ h

/-- The fold used by `fastest_of` attains a mean not above the initial
value and not above any list member. -/
theorem fastestFold_le (rs : List BenchmarkResult) :
    ∀ best : BenchmarkResult,
      (rs.foldl (fun best x => if x.mean < best.mean then x else best) best).mean ≤ best.mean ∧
      ∀ r ∈ rs,
        (rs.foldl (fun best x => if x.mean < best.mean then x else best) best).mean ≤ r.mean := by
  induction rs with
  | nil => intro best; exact ⟨le_refl _, by simp⟩
  | cons r rs ih =>
    intro best
    obtain ⟨h1, h2⟩ := ih (if r.mean < best.mean then r else best)
    have hstep : (if r.mean < best.mean then r else best).mean ≤ best.mean ∧
        (if r.mean < best.mean then r else best).mean ≤ r.mean := by
      split
      · exact ⟨le_of_lt (by assumption), le_refl _⟩
      · exact ⟨le_refl _, le_of_not_lt (by assumption)⟩
    refine ⟨?_, ?_⟩
    · rw [List.foldl_cons]
      exact le_trans h1 hstep.1
    · intro x hx
      rcases List.mem_cons.mp hx with rfl | hx
      · rw [List.foldl_cons]
        exact le_trans h1 hstep.2
      · rw [List.foldl_cons]
        exact h2 x hx

/-- `fastest_of` returns a member of the batch. -/
theorem fastest_of_mem {results : List BenchmarkResult} {f : BenchmarkResult}
    (h : relative_speed.fastest_of results = some f) : f ∈ results := by
  cases results with
  | nil => simp [relative_speed.fastest_of] at h
  | cons r rs =>
    simp only [relative_speed.fastest_of, Option.some.injEq] at h
    rcases fastestFold_mem rs r with h2 | h2
    · rw [← h, h2]; exact List.mem_cons_self _ _
    · rw [← h]; exact List.mem_cons_of_mem _ h2

/-- `fastest_of` returns a result of minimal mean time. -/
theorem fastest_of_le {results : List BenchmarkResult} {f : BenchmarkResult}
    (h : relative_speed.fastest_of results = some f) :
    ∀ r ∈ results, f.mean ≤ r.mean := by
  cases results with
  | nil => simp [relative_speed.fastest_of] at h
  | cons r rs =>
    simp only [relative_speed.fastest_of, Option.some.injEq] at h
    obtain ⟨h1, h2⟩ := fastestFold_le rs r
    intro x hx
    rcases List.mem_cons.mp hx with rfl | hx
    · rw [← h]; exact h1
    · rw [← h]; exact h2 x hx

/-- A non-empty batch has a fastest element. -/
theorem fastest_of_isSome {results : List BenchmarkResult} (h : results ≠ []) :
    ∃ f, relative_speed.fastest_of results = some f := by
  cases results with
  | nil => exact absurd rfl h
  | cons r rs => exact ⟨_, rfl⟩

/-- C9: when fewer than two `BenchmarkResult`s are supplied, the comparison
step produces no output at all — neither a summary nor a diagnostic — and
returns normally (the embedding is a total function whose `noOutput` value
is the early `return`). -/
theorem no_comparison_for_single_result (results : List BenchmarkResult)
    (h : results.length < 2) :
    write_benchmark_comparison results = ComparisonOutput.noOutput := by
  simp [write_benchmark_comparison, h]

/-- Witness for C9 at a concrete one-element batch. -/
theorem no_comparison_for_single_result_witness :
    ([mkResult ("a") 1] : List BenchmarkResult).length < 2 ∧
    write_benchmark_comparison [mkResult ("a") 1] = ComparisonOutput.noOutput :=
  ⟨by decide, no_comparison_for_single_result [mkResult ("a") 1] (by decide)⟩

/-- C2: over a batch of at least two results, `relative_speed::compute`
returns `none` exactly when the fastest command's mean (the minimum mean of
the batch) is zero, and in that case `write_benchmark_comparison` prints
the diagnostic note instead of a comparison table. -/
theorem compute_none_iff_zero_fastest_mean (results : List BenchmarkResult)
    (h2 : 2 ≤ results.length) :
    (relative_speed.compute results = none ↔
      ∃ r ∈ results, r.mean = 0 ∧ ∀ s ∈ results, r.mean ≤ s.mean) ∧
    (relative_speed.compute results = none →
      write_benchmark_comparison results = ComparisonOutput.zeroMeanNote) := by
  have hne : results ≠ [] := by
    intro hnil
    rw [hnil] at h2
    simp at h2
  obtain ⟨f, hf⟩ := fastest_of_isSome hne
  have hfmem := fastest_of_mem hf
  have hfle := fastest_of_le hf
  constructor
  · rw [relative_speed.compute, hf]
    constructor
    · intro hnone
      by_cases hz : f.mean = 0
      · exact ⟨f, hfmem, hz, hfle⟩
      · simp [hz] at hnone
    · rintro ⟨r, hr, hr0, hrmin⟩
      have : f.mean = 0 := le_antisymm (hr0 ▸ hfle r hr) (hr0 ▸ hrmin f hfmem)
      simp [this]
  · intro hnone
    rw [write_benchmark_comparison]
    rw [if_neg (by omega), hnone]

/-- Witness for C2 at a concrete batch whose fastest mean is zero. -/
theorem compute_none_iff_zero_fastest_mean_witness :
    2 ≤ ([mkResult ("a") 2, mkResult ("b") 0] : List BenchmarkResult).length ∧
    ((relative_speed.compute [mkResult ("a") 2, mkResult ("b") 0] = none ↔
      ∃ r ∈ ([mkResult ("a") 2, mkResult ("b") 0] : List BenchmarkResult),
        r.mean = 0 ∧
        ∀ s ∈ ([mkResult ("a") 2, mkResult ("b") 0] : List BenchmarkResult), r.mean ≤ s.mean) ∧
     (relative_speed.compute [mkResult ("a") 2, mkResult ("b") 0] = none →
      write_benchmark_comparison [mkResult ("a") 2, mkResult ("b") 0] =
        ComparisonOutput.zeroMeanNote)) :=
  ⟨by decide, compute_none_iff_zero_fastest_mean [mkResult ("a") 2, mkResult ("b") 0] (by decide)⟩

/-- Inversion of a successful `relative_speed::compute`: there is a fastest
result with non-zero mean, and the annotated batch is the input batch
annotated against it, in input order. -/
theorem compute_eq_some_inv {results : List BenchmarkResult}
    {annotated : List AnnotatedResult}
    (hc : relative_speed.compute results = some annotated) :
    ∃ f, relative_speed.fastest_of results = some f ∧ f.mean ≠ 0 ∧
      annotated = results.map (relative_speed.annotate f) := by
  cases hf : relative_speed.fastest_of results with
  | none =>
    simp only [relative_speed.compute, hf] at hc
    exact Option.noConfusion hc
  | some f =>
    simp only [relative_speed.compute, hf] at hc
    by_cases hz : f.mean = 0
    · simp [hz] at hc
    · rw [if_neg hz] at hc
      exact ⟨f, rfl, hz, (Option.some_inj.mp hc).symm⟩

/-- C6: in any comparison batch of results with non-negative means that
`compute` accepts, every annotated relative speed is at least `1`, and the
relative speed of any fastest result (one of minimum mean) is exactly `1`. -/
theorem relative_speed_of_fastest_is_one (results : List BenchmarkResult)
    (annotated : List AnnotatedResult)
    (hnn : ∀ r ∈ results, 0 ≤ r.mean)
    (hc : relative_speed.compute results = some annotated) :
    (∀ a ∈ annotated, 1 ≤ a.relative_speed) ∧
    (∀ a ∈ annotated, (∀ s ∈ results, a.result.mean ≤ s.mean) → a.relative_speed = 1) := by
  obtain ⟨f, hf, hz, hmap⟩ := compute_eq_some_inv hc
  have hfmem := fastest_of_mem hf
  have hfle := fastest_of_le hf
  have hfpos : 0 < f.mean := lt_of_le_of_ne (hnn f hfmem) (Ne.symm hz)
  constructor
  · intro a ha
    rw [hmap] at ha
    obtain ⟨r, hr, rfl⟩ := List.mem_map.mp ha
    show (1 : ℚ) ≤ r.mean / f.mean
    rw [one_le_div hfpos]
    exact hfle r hr
  · intro a ha hmin
    rw [hmap] at ha
    obtain ⟨r, hr, rfl⟩ := List.mem_map.mp ha
    show r.mean / f.mean = 1
    have h1 : r.mean = f.mean := le_antisymm (hmin f hfmem) (hfle r hr)
    rw [h1, div_self hz]

/-- Witness for C6 at a concrete two-command batch with means 2 and 1. -/
theorem relative_speed_of_fastest_is_one_witness :
    (∀ r ∈ ([mkResult ("a") 2, mkResult ("b") 1] : List BenchmarkResult), 0 ≤ r.mean) ∧
    relative_speed.compute [mkResult ("a") 2, mkResult ("b") 1] =
      some [relative_speed.annotate (mkResult ("b") 1) (mkResult ("a") 2),
        relative_speed.annotate (mkResult ("b") 1) (mkResult ("b") 1)] ∧
    ((∀ a ∈ [relative_speed.annotate (mkResult ("b") 1) (mkResult ("a") 2),
        relative_speed.annotate (mkResult ("b") 1) (mkResult ("b") 1)], 1 ≤ a.relative_speed) ∧
     (∀ a ∈ [relative_speed.annotate (mkResult ("b") 1) (mkResult ("a") 2),
        relative_speed.annotate (mkResult ("b") 1) (mkResult ("b") 1)],
       (∀ s ∈ ([mkResult ("a") 2, mkResult ("b") 1] : List BenchmarkResult),
         a.result.mean ≤ s.mean) → a.relative_speed = 1)) :=
  ⟨by decide,
    by norm_num [relative_speed.compute, relative_speed.fastest_of, mkResult],
    relative_speed_of_fastest_is_one [mkResult ("a") 2, mkResult ("b") 1] _ (by decide)
      (by norm_num [relative_speed.compute, relative_speed.fastest_of, mkResult])⟩

/-- The mean-time order fed to the stable sort is transitive. -/
theorem mean_le_trans : ∀ a b c : AnnotatedResult,
    relative_speed.mean_le a b = true → relative_speed.mean_le b c = true →
    relative_speed.mean_le a c = true := by
  intro a b c hab hbc
  simp only [relative_speed.mean_le, decide_eq_true_eq] at *
  exact le_trans hab hbc

/-- The mean-time order fed to the stable sort is total. -/
theorem mean_le_total : ∀ a b : AnnotatedResult,
    (relative_speed.mean_le a b || relative_speed.mean_le b a) = true := by
  intro a b
  simp only [relative_speed.mean_le, Bool.or_eq_true, decide_eq_true_eq]
  exact le_total a.result.mean b.result.mean

/-- C5: for a computable comparison batch of at least two results, the
displayed summary is the annotated batch sorted ascending by mean time:
the display is a permutation of the batch, pairwise ordered by mean, the
fastest (minimum-mean) entry comes first, and any two entries of equal mean
keep their original input order (stability of the sort). -/
theorem comparison_sorted_by_mean_stable (results : List BenchmarkResult)
    (annotated : List AnnotatedResult)
    (h2 : 2 ≤ results.length)
    (hc : relative_speed.compute results = some annotated) :
    write_benchmark_comparison results =
      ComparisonOutput.summary (annotated.mergeSort relative_speed.mean_le) ∧
    (annotated.mergeSort relative_speed.mean_le).Pairwise
      (fun a b => a.result.mean ≤ b.result.mean) ∧
    (annotated.mergeSort relative_speed.mean_le).Perm annotated ∧
    (∀ a b : AnnotatedResult, [a, b].Sublist annotated → a.result.mean = b.result.mean →
      [a, b].Sublist (annotated.mergeSort relative_speed.mean_le)) ∧
    (∀ y, (annotated.mergeSort relative_speed.mean_le).head? = some y →
      ∀ x ∈ annotated.mergeSort relative_speed.mean_le,
        y.result.mean ≤ x.result.mean) := by
  refine ⟨?_, ?_, ?_, ?_, ?_⟩
  · rw [write_benchmark_comparison, if_neg (by omega), hc]
  · have := List.sorted_mergeSort mean_le_trans mean_le_total annotated
    refine List.Pairwise.imp ?_ this
    intro a b hab
    simpa [relative_speed.mean_le, decide_eq_true_eq] using hab
  · exact List.mergeSort_perm annotated relative_speed.mean_le
  · intro a b hsub heq
    refine List.pair_sublist_mergeSort mean_le_trans mean_le_total ?_ hsub
    simp [relative_speed.mean_le, heq]
  · intro y hy x hx
    have hs := List.sorted_mergeSort mean_le_trans mean_le_total annotated
    cases hsort : annotated.mergeSort relative_speed.mean_le with
    | nil =>
      rw [hsort] at hy
      exact Option.noConfusion hy
    | cons z zs =>
      rw [hsort] at hy hs hx
      have hyz : y = z := by
        have := hy
        simp only [List.head?_cons, Option.some_inj] at this
        exact this.symm
      rcases List.mem_cons.mp hx with rfl | hx
      · rw [hyz]
      · have := (List.pairwise_cons.mp hs).1 x hx
        simp only [relative_speed.mean_le, decide_eq_true_eq] at this
        rw [hyz]
        exact this

/-- Witness for C5 at the concrete batch `twoBatch`. -/
theorem comparison_sorted_by_mean_stable_witness :
    2 ≤ twoBatch.length ∧
    relative_speed.compute twoBatch = some twoAnnotated ∧
    (write_benchmark_comparison twoBatch =
      ComparisonOutput.summary (twoAnnotated.mergeSort relative_speed.mean_le) ∧
    (twoAnnotated.mergeSort relative_speed.mean_le).Pairwise
      (fun a b => a.result.mean ≤ b.result.mean) ∧
    (twoAnnotated.mergeSort relative_speed.mean_le).Perm twoAnnotated ∧
    (∀ a b : AnnotatedResult, [a, b].Sublist twoAnnotated → a.result.mean = b.result.mean →
      [a, b].Sublist (twoAnnotated.mergeSort relative_speed.mean_le)) ∧
    (∀ y, (twoAnnotated.mergeSort relative_speed.mean_le).head? = some y →
      ∀ x ∈ twoAnnotated.mergeSort relative_speed.mean_le,
        y.result.mean ≤ x.result.mean)) :=
  ⟨by decide,
    by norm_num [twoBatch, twoAnnotated, relative_speed.compute, relative_speed.fastest_of,
      mkResult],
    comparison_sorted_by_mean_stable twoBatch twoAnnotated (by decide)
      (by norm_num [twoBatch, twoAnnotated, relative_speed.compute, relative_speed.fastest_of,
        mkResult])⟩

/-- A running-minimum fold is bounded by its initial value. -/
theorem foldl_min_le_init : ∀ (xs : List ℚ) (x : ℚ), xs.foldl min x ≤ x := by
  intro xs
  induction xs with
  | nil => intro x; exact le_refl x
  | cons y ys ih =>
    intro x
    rw [List.foldl_cons]
    exact le_trans (ih (min x y)) (min_le_left x y)

/-- A running-minimum fold is bounded by every traversed element. -/
theorem foldl_min_le_mem : ∀ (xs : List ℚ) (x y : ℚ), y ∈ xs → xs.foldl min x ≤ y := by
  intro xs
  induction xs with
  | nil => intro x y hy; exact absurd hy (List.not_mem_nil y)
  | cons z zs ih =>
    intro x y hy
    rw [List.foldl_cons]
    rcases List.mem_cons.mp hy with rfl | hy
    · exact le_trans (foldl_min_le_init zs (min x y)) (min_le_right x y)
    · exact ih (min x z) y hy

/-- A running-minimum fold yields its initial value or a traversed element. -/
theorem foldl_min_mem : ∀ (xs : List ℚ) (x : ℚ), xs.foldl min x = x ∨ xs.foldl min x ∈ xs := by
  intro xs
  induction xs with
  | nil => intro x; left; rfl
  | cons y ys ih =>
    intro x
    rw [List.foldl_cons]
    rcases ih (min x y) with h | h
    · rcases min_choice x y with hm | hm
      · left; rw [h, hm]
      · right; rw [h, hm]; exact List.mem_cons_self _ _
    · right; exact List.mem_cons_of_mem _ h

/-- A running-maximum fold dominates its initial value. -/
theorem le_foldl_max_init : ∀ (xs : List ℚ) (x : ℚ), x ≤ xs.foldl max x := by
  intro xs
  induction xs with
  | nil => intro x; exact le_refl x
  | cons y ys ih =>
    intro x
    rw [List.foldl_cons]
    exact le_trans (le_max_left x y) (ih (max x y))

/-- A running-maximum fold dominates every traversed element. -/
theorem le_foldl_max_mem : ∀ (xs : List ℚ) (x y : ℚ), y ∈ xs → y ≤ xs.foldl max x := by
  intro xs
  induction xs with
  | nil => intro x y hy; exact absurd hy (List.not_mem_nil y)
  | cons z zs ih =>
    intro x y hy
    rw [List.foldl_cons]
    rcases List.mem_cons.mp hy with rfl | hy
    · exact le_trans (le_max_right x y) (le_foldl_max_init zs (max x y))
    · exact ih (max x z) y hy

/-- The tracked minimum bounds every sample. -/
theorem sampleMin_le {times : List ℚ} {x : ℚ} (hx : x ∈ times) :
    aggregation.sampleMin times ≤ x := by
  cases times with
  | nil => exact absurd hx (List.not_mem_nil x)
  | cons t ts =>
    rw [aggregation.sampleMin]
    rcases List.mem_cons.mp hx with rfl | hx
    · exact foldl_min_le_init ts x
    · exact foldl_min_le_mem ts t x hx

/-- The tracked maximum dominates every sample. -/
theorem le_sampleMax {times : List ℚ} {x : ℚ} (hx : x ∈ times) :
    x ≤ aggregation.sampleMax times := by
  cases times with
  | nil => exact absurd hx (List.not_mem_nil x)
  | cons t ts =>
    rw [aggregation.sampleMax]
    rcases List.mem_cons.mp hx with rfl | hx
    · exact le_foldl_max_init ts x
    · exact le_foldl_max_mem ts t x hx

/-- The tracked minimum is itself a sample of a non-empty stream. -/
theorem sampleMin_mem {times : List ℚ} (h : times ≠ []) :
    aggregation.sampleMin times ∈ times := by
  cases times with
  | nil => exact absurd rfl h
  | cons t ts =>
    rw [aggregation.sampleMin]
    rcases foldl_min_mem ts t with h2 | h2
    · rw [h2]; exact List.mem_cons_self _ _
    · exact List.mem_cons_of_mem _ h2

/-- The mean of a non-empty sample stream lies between its minimum and its
maximum. -/
theorem sampleMean_between {times : List ℚ} (h : times ≠ []) :
    aggregation.sampleMin times ≤ aggregation.sampleMean times ∧
    aggregation.sampleMean times ≤ aggregation.sampleMax times := by
  have hlen : 0 < times.length := List.length_pos.mpr h
  have hlenq : (0 : ℚ) < (times.length : ℚ) := by exact_mod_cast hlen
  have hlow : (times.length : ℚ) * aggregation.sampleMin times ≤ times.sum := by
    have := List.card_nsmul_le_sum times (aggregation.sampleMin times)
      (fun x hx => sampleMin_le hx)
    rwa [nsmul_eq_mul] at this
  have hhigh : times.sum ≤ (times.length : ℚ) * aggregation.sampleMax times := by
    have := List.sum_le_card_nsmul times (aggregation.sampleMax times)
      (fun x hx => le_sampleMax hx)
    rwa [nsmul_eq_mul] at this
  constructor
  · rw [aggregation.sampleMean, le_div_iff₀ hlenq]
    calc aggregation.sampleMin times * (times.length : ℚ)
        = (times.length : ℚ) * aggregation.sampleMin times := by ring
      _ ≤ times.sum := hlow
  · rw [aggregation.sampleMean, div_le_iff₀ hlenq]
    calc times.sum ≤ (times.length : ℚ) * aggregation.sampleMax times := hhigh
      _ = aggregation.sampleMax times * (times.length : ℚ) := by ring

/-- The median of a non-empty sample stream lies between its minimum and
its maximum. -/
theorem sampleMedian_between {times : List ℚ} (h : times ≠ []) :
    aggregation.sampleMin times ≤ aggregation.sampleMedian times ∧
    aggregation.sampleMedian times ≤ aggregation.sampleMax times := by
  have hperm := List.mergeSort_perm times (fun a b => decide (a ≤ b))
  have hlen : (aggregation.sortedTimes times).length = times.length := by
    rw [aggregation.sortedTimes]
    exact hperm.length_eq
  have hpos : 0 < times.length := List.length_pos.mpr h
  have hmem : ∀ i (hi : i < times.length),
      aggregation.sampleMin times ≤ (aggregation.sortedTimes times).getD i 0 ∧
      (aggregation.sortedTimes times).getD i 0 ≤ aggregation.sampleMax times := by
    intro i hi
    have hi2 : i < (aggregation.sortedTimes times).length := by rw [hlen]; exact hi
    rw [List.getD_eq_getElem _ _ hi2]
    have hmem2 : (aggregation.sortedTimes times)[i] ∈ aggregation.sortedTimes times :=
      List.getElem_mem hi2
    have hmem3 : (aggregation.sortedTimes times)[i] ∈ times := hperm.mem_iff.mp hmem2
    exact ⟨sampleMin_le hmem3, le_sampleMax hmem3⟩
  rw [aggregation.sampleMedian]
  by_cases hodd : times.length % 2 = 1
  · rw [if_pos hodd]
    exact hmem (times.length / 2) (Nat.div_lt_self hpos one_lt_two)
  · rw [if_neg hodd]
    have h2le : 2 ≤ times.length := by omega
    obtain ⟨ha1, ha2⟩ := hmem (times.length / 2 - 1) (by omega)
    obtain ⟨hb1, hb2⟩ := hmem (times.length / 2) (Nat.div_lt_self hpos one_lt_two)
    constructor
    · linarith
    · linarith

/-- C7: aggregation over a non-empty sequence of durations produces a
`BenchmarkResult` whose fields satisfy `min ≤ median ≤ max` and
`min ≤ mean ≤ max`. -/
theorem aggregate_min_median_max (cmd : String)
    (times user_times system_times : List ℚ)
    (exit_codes : List (Option Int)) (parameter_values : List (String × String))
    (h : times ≠ []) :
    ∃ r : BenchmarkResult,
      aggregation.aggregate cmd times user_times system_times exit_codes parameter_values =
        some r ∧
      r.min ≤ r.median ∧ r.median ≤ r.max ∧ r.min ≤ r.mean ∧ r.mean ≤ r.max := by
  obtain ⟨hm1, hm2⟩ := sampleMedian_between h
  obtain ⟨hs1, hs2⟩ := sampleMean_between h
  rw [aggregation.aggregate, if_neg (by simpa using h)]
  exact ⟨_, rfl, hm1, hm2, hs1, hs2⟩

/-- Witness for C7 at the concrete sample stream `[3, 1, 2]`. -/
theorem aggregate_min_median_max_witness :
    ([3, 1, 2] : List ℚ) ≠ [] ∧
    ∃ r : BenchmarkResult,
      aggregation.aggregate ("c") [3, 1, 2] [1] [1] [some 0] [] = some r ∧
      r.min ≤ r.median ∧ r.median ≤ r.max ∧ r.min ≤ r.mean ∧ r.mean ≤ r.max :=
  ⟨by decide, aggregate_min_median_max ("c") [3, 1, 2] [1] [1] [some 0] [] (by decide)⟩

/-- The benchmark loop only appends benchmark-runner calls (always carrying
the calibration value `t` it was given) and export calls to the trace. -/
theorem benchLoop_trace_shape (env : Env) (options : Options) (t : ℚ) :
    ∀ (cmds : List String) (num : Nat) (acc : List BenchmarkResult) (tr : List Event),
      ∃ fresh : List Event,
        (benchLoop env options t num cmds acc tr).1 = tr ++ fresh ∧
        ∀ e ∈ fresh, (∃ n c, e = Event.runBenchmark n c t) ∨
          ∃ rs, e = Event.exportResults rs := by
  intro cmds
  induction cmds with
  | nil =>
    intro num acc tr
    exact ⟨[], by simp [benchLoop], by simp⟩
  | cons cmd rest ih =>
    intro num acc tr
    cases hrb : env.run_benchmark num cmd t options with
    | error e =>
      refine ⟨[Event.runBenchmark num cmd t], ?_, ?_⟩
      · simp [benchLoop, hrb]
      · intro e he
        rcases List.mem_singleton.mp he with rfl
        exact Or.inl ⟨num, cmd, rfl⟩
    | ok r =>
      cases hwr : env.write_results (acc ++ [r]) with
      | error e =>
        refine ⟨[Event.runBenchmark num cmd t, Event.exportResults (acc ++ [r])], ?_, ?_⟩
        · simp [benchLoop, hrb, hwr]
        · intro e he
          rcases List.mem_cons.mp he with rfl | he
          · exact Or.inl ⟨num, cmd, rfl⟩
          · rcases List.mem_singleton.mp he with rfl
            exact Or.inr ⟨acc ++ [r], rfl⟩
      | ok u =>
        obtain ⟨fresh, h1, h2⟩ := ih (num + 1) (acc ++ [r])
          (tr ++ [Event.runBenchmark num cmd t, Event.exportResults (acc ++ [r])])
        refine ⟨[Event.runBenchmark num cmd t, Event.exportResults (acc ++ [r])] ++ fresh, ?_, ?_⟩
        · cases u
          simp only [benchLoop, hrb, hwr]
          rw [h1, List.append_assoc]
        · intro e he
          rcases List.mem_append.mp he with he | he
          · rcases List.mem_cons.mp he with rfl | he
            · exact Or.inl ⟨num, cmd, rfl⟩
            · rcases List.mem_singleton.mp he with rfl
              exact Or.inr ⟨acc ++ [r], rfl⟩
          · exact h2 e he

/-- Properties of any trace beginning with the calibration event and
continuing with runner, export or print events only: the calibration is
first, happens exactly once, and every benchmark-runner call carries the
calibration value. -/
theorem calibrationTrace_props (t : ℚ) (rest : List Event)
    (hrest : ∀ e ∈ rest, (∃ n c, e = Event.runBenchmark n c t) ∨
      (∃ rs, e = Event.exportResults rs) ∨ ∃ o, e = Event.printComparison o) :
    (Event.calibrate t :: rest).head? = some (Event.calibrate t) ∧
    (Event.calibrate t :: rest).countP isCalibration = 1 ∧
    ∀ num cmd tc, Event.runBenchmark num cmd tc ∈ Event.calibrate t :: rest → tc = t := by
  refine ⟨rfl, ?_, ?_⟩
  · rw [List.countP_cons]
    have h0 : rest.countP isCalibration = 0 := by
      rw [List.countP_eq_zero]
      intro e he
      rcases hrest e he with ⟨n, c, rfl⟩ | ⟨rs, rfl⟩ | ⟨o, rfl⟩ <;> simp [isCalibration]
    rw [h0]
    rfl
  · intro num cmd tc hmem
    rcases List.mem_cons.mp hmem with heq | hmem
    · exact Event.noConfusion heq
    · rcases hrest _ hmem with ⟨n, c, heq⟩ | ⟨rs, heq⟩ | ⟨o, heq⟩
      · simp only [Event.runBenchmark.injEq] at heq
        exact heq.2.2
      · exact Event.noConfusion heq
      · exact Event.noConfusion heq

/-- C4: when calibration succeeds with value `t`, the trace of
`run_benchmarks_and_print_comparison` opens with the single calibration
event — computed before any benchmark — the calibration happens exactly
once, and every benchmark-runner invocation receives that same value `t`. -/
theorem calibration_once_read_only (env : Env) (commands : List String) (options : Options)
    (t : ℚ)
    (hcal : env.mean_shell_spawning_time options.shell options.output_style options.show_output =
      Except.ok t) :
    (run_benchmarks_and_print_comparison env commands options).1.head? =
      some (Event.calibrate t) ∧
    (run_benchmarks_and_print_comparison env commands options).1.countP isCalibration = 1 ∧
    ∀ num cmd tc, Event.runBenchmark num cmd tc ∈
      (run_benchmarks_and_print_comparison env commands options).1 → tc = t := by
  simp only [run_benchmarks_and_print_comparison, hcal]
  by_cases hpm : prepare_count_mismatch options commands
  · rw [if_pos hpm]
    exact calibrationTrace_props t [] (by simp)
  · rw [if_neg hpm]
    obtain ⟨fresh, hsh, hfr⟩ :=
      benchLoop_trace_shape env options t commands 0 [] [Event.calibrate t]
    rcases hbl : benchLoop env options t 0 commands [] [Event.calibrate t] with ⟨tr, res⟩
    rw [hbl] at hsh
    simp only at hsh
    cases res with
    | error e =>
      simp only
      rw [hsh, List.singleton_append]
      exact calibrationTrace_props t fresh (fun e he => by
        rcases hfr e he with h | h
        · exact Or.inl h
        · exact Or.inr (Or.inl h))
    | ok timing_results =>
      simp only
      by_cases hst : options.output_style != OutputStyleOption.Disabled
      · rw [if_pos hst, hsh, List.singleton_append, List.cons_append]
        refine calibrationTrace_props t
          (fresh ++ [Event.printComparison (write_benchmark_comparison timing_results)])
          (fun e he => ?_)
        rcases List.mem_append.mp he with he | he
        · rcases hfr e he with h | h
          · exact Or.inl h
          · exact Or.inr (Or.inl h)
        · rcases List.mem_singleton.mp he with rfl
          exact Or.inr (Or.inr ⟨_, rfl⟩)
      · rw [if_neg hst, hsh, List.singleton_append]
        exact calibrationTrace_props t fresh (fun e he => by
          rcases hfr e he with h | h
          · exact Or.inl h
          · exact Or.inr (Or.inl h))

/-- Witness for C4 with the concrete all-succeeding environment and two
commands. -/
theorem calibration_once_read_only_witness :
    okEnv.mean_shell_spawning_time optsFull.shell optsFull.output_style optsFull.show_output =
      Except.ok (1 / 100) ∧
    ((run_benchmarks_and_print_comparison okEnv [("a"), ("b")] optsFull).1.head? =
      some (Event.calibrate (1 / 100)) ∧
    (run_benchmarks_and_print_comparison okEnv [("a"), ("b")] optsFull).1.countP isCalibration
      = 1 ∧
    ∀ num cmd tc, Event.runBenchmark num cmd tc ∈
      (run_benchmarks_and_print_comparison okEnv [("a"), ("b")] optsFull).1 → tc = 1 / 100) :=
  ⟨rfl, calibration_once_read_only okEnv [("a"), ("b")] optsFull (1 / 100) rfl⟩

/-- C3: when more than one preparation command is supplied and the count
differs from the number of benchmark commands, the run aborts with an
error, no benchmark-runner call ever happens, and (when calibration
succeeds) the outcome is exactly the fatal configuration error with only
the calibration in the trace. -/
theorem prepare_mismatch_aborts_before_benchmarks (env : Env) (commands : List String)
    (options : Options) (prep : List String)
    (hprep : options.preparation_command = some prep)
    (hlen : 1 < prep.length)
    (hne : commands.length ≠ prep.length) :
    (∃ e, (run_benchmarks_and_print_comparison env commands options).2 = Except.error e) ∧
    (∀ num cmd tc, Event.runBenchmark num cmd tc ∉
      (run_benchmarks_and_print_comparison env commands options).1) ∧
    (∀ t, env.mean_shell_spawning_time options.shell options.output_style options.show_output =
        Except.ok t →
      run_benchmarks_and_print_comparison env commands options =
        ([Event.calibrate t], Except.error HfError.prepareCountMismatch)) := by
  have hpm : prepare_count_mismatch options commands = true := by
    rw [prepare_count_mismatch, hprep]
    simp only [Bool.and_eq_true, decide_eq_true_eq, bne_iff_ne, ne_eq, gt_iff_lt]
    exact ⟨hlen, hne⟩
  cases hcal : env.mean_shell_spawning_time options.shell options.output_style
      options.show_output with
  | error e =>
    simp only [run_benchmarks_and_print_comparison, hcal]
    refine ⟨⟨e, rfl⟩, by simp, ?_⟩
    intro t ht
    exact Except.noConfusion ht
  | ok t =>
    simp only [run_benchmarks_and_print_comparison, hcal, hpm, if_true]
    refine ⟨⟨HfError.prepareCountMismatch, rfl⟩, ?_, ?_⟩
    · intro num cmd tc hmem
      rcases List.mem_singleton.mp hmem with heq
      exact Event.noConfusion heq
    · intro t2 ht2
      rcases Except.ok.inj ht2 with rfl
      rfl

/-- Witness for C3 with three commands and two preparation commands. -/
theorem prepare_mismatch_aborts_before_benchmarks_witness :
    optsPrepTwo.preparation_command = some [("p1"), ("p2")] ∧
    1 < ([("p1"), ("p2")] : List String).length ∧
    ([("a"), ("b"), ("c")] : List String).length ≠ ([("p1"), ("p2")] : List String).length ∧
    ((∃ e, (run_benchmarks_and_print_comparison okEnv [("a"), ("b"), ("c")] optsPrepTwo).2 =
        Except.error e) ∧
    (∀ num cmd tc, Event.runBenchmark num cmd tc ∉
      (run_benchmarks_and_print_comparison okEnv [("a"), ("b"), ("c")] optsPrepTwo).1) ∧
    (∀ t, okEnv.mean_shell_spawning_time optsPrepTwo.shell optsPrepTwo.output_style
        optsPrepTwo.show_output = Except.ok t →
      run_benchmarks_and_print_comparison okEnv [("a"), ("b"), ("c")] optsPrepTwo =
        ([Event.calibrate t], Except.error HfError.prepareCountMismatch))) :=
  ⟨rfl, by decide, by decide,
    prepare_mismatch_aborts_before_benchmarks okEnv [("a"), ("b"), ("c")] optsPrepTwo
      [("p1"), ("p2")] rfl (by decide) (by decide)⟩

/-- When every benchmark-runner call and every export call succeeds, the
benchmark loop appends exactly the expected alternation of runner and
export events and returns all results in order. -/
theorem benchLoop_ok (env : Env) (options : Options) (t : ℚ)
    (hw : ∀ l, env.write_results l = Except.ok ()) :
    ∀ (cmds : List String) (rs : List BenchmarkResult) (num : Nat)
      (acc : List BenchmarkResult) (tr : List Event),
      rs.length = cmds.length →
      (∀ i, i < cmds.length →
        env.run_benchmark (num + i) (cmds.getD i ("")) t options =
          Except.ok (rs.getD i (mkResult ("") 0))) →
      benchLoop env options t num cmds acc tr =
        (tr ++ runTrace t num acc cmds rs, Except.ok (acc ++ rs)) := by
  intro cmds
  induction cmds with
  | nil =>
    intro rs num acc tr hlen hrb
    have hnil : rs = [] := List.length_eq_zero.mp (by simpa using hlen)
    subst hnil
    simp [benchLoop, runTrace]
  | cons cmd rest ih =>
    intro rs num acc tr hlen hrb
    cases rs with
    | nil => simp at hlen
    | cons r rs2 =>
      have h0 := hrb 0 (by simp)
      simp only [List.getD_cons_zero, Nat.add_zero] at h0
      have hlen2 : rs2.length = rest.length := by simpa using hlen
      have hrb2 : ∀ i, i < rest.length →
          env.run_benchmark (num + 1 + i) (rest.getD i ("")) t options =
            Except.ok (rs2.getD i (mkResult ("") 0)) := by
        intro i hi
        have h1 := hrb (i + 1) (by simpa using Nat.succ_lt_succ hi)
        simp only [List.getD_cons_succ] at h1
        have h2 : num + (i + 1) = num + 1 + i := by omega
        rwa [h2] at h1
      simp only [benchLoop, h0, hw]
      rw [ih rs2 (num + 1) (acc ++ [r])
        (tr ++ [Event.runBenchmark num cmd t, Event.exportResults (acc ++ [r])]) hlen2 hrb2]
      rw [runTrace]
      simp [List.append_assoc]

/-- The export calls recorded by the expected loop trace are the successive
extensions of the accumulated results, one per command, in order. -/
theorem exportsOf_runTrace (t : ℚ) :
    ∀ (cmds : List String) (rs : List BenchmarkResult) (num : Nat)
      (acc : List BenchmarkResult),
      rs.length = cmds.length →
      exportsOf (runTrace t num acc cmds rs) =
        (List.range cmds.length).map (fun k => acc ++ rs.take (k + 1)) := by
  intro cmds
  induction cmds with
  | nil =>
    intro rs num acc hlen
    simp [runTrace, exportsOf]
  | cons cmd rest ih =>
    intro rs num acc hlen
    cases rs with
    | nil => simp at hlen
    | cons r rs2 =>
      have hlen2 : rs2.length = rest.length := by simpa using hlen
      rw [runTrace]
      rw [show exportsOf (Event.runBenchmark num cmd t :: Event.exportResults (acc ++ [r]) ::
          runTrace t (num + 1) (acc ++ [r]) rest rs2) =
          (acc ++ [r]) :: exportsOf (runTrace t (num + 1) (acc ++ [r]) rest rs2) from by
        simp [exportsOf]]
      rw [ih rs2 (num + 1) (acc ++ [r]) hlen2]
      rw [List.length_cons, List.range_succ_eq_map, List.map_cons, List.map_map]
      refine congrArg₂ _ (by simp) ?_
      refine List.map_congr_left (fun k hk => ?_)
      simp [List.take_succ_cons, Function.comp]

/-- C8: when every collaborator call succeeds, the orchestrator trace is
exactly the calibration, then for each command in input order its
benchmark-runner call immediately followed by an export call, and finally
the comparison printout (unless output is disabled); the successive export
calls hand over the prefixes `rs.take 1, rs.take 2, …`, so each
intermediate export happens right after the corresponding command finishes
and contains only finished results, and the last export carries the full
result list. -/
theorem results_exported_in_order (env : Env) (commands : List String) (options : Options)
    (t : ℚ) (rs : List BenchmarkResult)
    (hcal : env.mean_shell_spawning_time options.shell options.output_style options.show_output =
      Except.ok t)
    (hprep : prepare_count_mismatch options commands = false)
    (hw : ∀ l, env.write_results l = Except.ok ())
    (hlen : rs.length = commands.length)
    (hrb : ∀ i, i < commands.length →
      env.run_benchmark i (commands.getD i ("")) t options =
        Except.ok (rs.getD i (mkResult ("") 0))) :
    run_benchmarks_and_print_comparison env commands options =
      (Event.calibrate t :: (runTrace t 0 [] commands rs ++
        (if options.output_style != OutputStyleOption.Disabled then
          [Event.printComparison (write_benchmark_comparison rs)] else [])),
        Except.ok ()) ∧
    exportsOf (run_benchmarks_and_print_comparison env commands options).1 =
      (List.range commands.length).map (fun k => rs.take (k + 1)) ∧
    (commands ≠ [] →
      (exportsOf (run_benchmarks_and_print_comparison env commands options).1).getLast? =
        some rs) := by
  have hrb0 : ∀ i, i < commands.length →
      env.run_benchmark (0 + i) (commands.getD i ("")) t options =
        Except.ok (rs.getD i (mkResult ("") 0)) := by
    intro i hi
    rw [Nat.zero_add]
    exact hrb i hi
  have hbl := benchLoop_ok env options t hw commands rs 0 [] [Event.calibrate t] hlen hrb0
  have hrun : run_benchmarks_and_print_comparison env commands options =
      (Event.calibrate t :: (runTrace t 0 [] commands rs ++
        (if options.output_style != OutputStyleOption.Disabled then
          [Event.printComparison (write_benchmark_comparison rs)] else [])),
        Except.ok ()) := by
    simp only [run_benchmarks_and_print_comparison, hcal, hprep, Bool.false_eq_true, if_false,
      hbl, List.nil_append]
    by_cases hst : options.output_style != OutputStyleOption.Disabled
    · rw [if_pos hst, if_pos hst]
      simp
    · rw [if_neg hst, if_neg hst]
      simp
  refine ⟨hrun, ?_, ?_⟩
  · rw [hrun]
    show exportsOf (Event.calibrate t :: _) = _
    rw [show ∀ l, exportsOf (Event.calibrate t :: l) = exportsOf l from fun l => by
      simp [exportsOf]]
    rw [exportsOf, List.filterMap_append, ← exportsOf, ← exportsOf,
      exportsOf_runTrace t commands rs 0 [] hlen]
    have hnil : exportsOf (if options.output_style != OutputStyleOption.Disabled then
        [Event.printComparison (write_benchmark_comparison rs)] else []) = [] := by
      by_cases hst : options.output_style != OutputStyleOption.Disabled
      · rw [if_pos hst]; simp [exportsOf]
      · rw [if_neg hst]; simp [exportsOf]
    rw [hnil, List.append_nil]
    simp
  · intro hne
    rw [hrun]
    show (exportsOf (Event.calibrate t :: _)).getLast? = _
    rw [show ∀ l, exportsOf (Event.calibrate t :: l) = exportsOf l from fun l => by
      simp [exportsOf]]
    rw [exportsOf, List.filterMap_append, ← exportsOf, ← exportsOf,
      exportsOf_runTrace t commands rs 0 [] hlen]
    have hnil : exportsOf (if options.output_style != OutputStyleOption.Disabled then
        [Event.printComparison (write_benchmark_comparison rs)] else []) = [] := by
      by_cases hst : options.output_style != OutputStyleOption.Disabled
      · rw [if_pos hst]; simp [exportsOf]
      · rw [if_neg hst]; simp [exportsOf]
    rw [hnil, List.append_nil]
    have hn : commands.length ≠ 0 := fun h => hne (List.length_eq_zero.mp h)
    rw [List.getLast?_eq_getElem?]
    simp only [List.length_map, List.length_range, List.getElem?_map]
    rw [List.getElem?_range (by omega)]
    have h1 : commands.length - 1 + 1 = commands.length := by omega
    simp [h1, ← hlen]
    omega

/-- Witness for C8 with the all-succeeding environment and two commands. -/
theorem results_exported_in_order_witness :
    (okEnv.mean_shell_spawning_time optsFull.shell optsFull.output_style optsFull.show_output =
      Except.ok (1 / 100)) ∧
    prepare_count_mismatch optsFull [("a"), ("b")] = false ∧
    okResults.length = ([("a"), ("b")] : List String).length ∧
    (run_benchmarks_and_print_comparison okEnv [("a"), ("b")] optsFull =
      (Event.calibrate (1 / 100) :: (runTrace (1 / 100) 0 [] [("a"), ("b")] okResults ++
        (if optsFull.output_style != OutputStyleOption.Disabled then
          [Event.printComparison (write_benchmark_comparison okResults)] else [])),
        Except.ok ()) ∧
     exportsOf (run_benchmarks_and_print_comparison okEnv [("a"), ("b")] optsFull).1 =
      (List.range ([("a"), ("b")] : List String).length).map
        (fun k => okResults.take (k + 1)) ∧
     (([("a"), ("b")] : List String) ≠ [] →
      (exportsOf
        (run_benchmarks_and_print_comparison okEnv [("a"), ("b")] optsFull).1).getLast? =
        some okResults)) :=
  ⟨rfl, rfl, rfl,
    results_exported_in_order okEnv [("a"), ("b")] optsFull (1 / 100) okResults rfl rfl
      (fun _ => rfl) rfl
      (by
        intro i hi
        rcases i with _ | _ | n
        · rfl
        · rfl
        · simp at hi
          omega)⟩

/-- C10: with output style `Disabled`, the comparison printout never
happens — for any environment and command list, no print event is in the
trace — while (under succeeding collaborators) the benchmarks still run
and their results are still exported exactly as with output enabled. -/
theorem disabled_style_suppresses_comparison (env : Env) (commands : List String)
    (options : Options) (t : ℚ) (rs : List BenchmarkResult)
    (hstyle : options.output_style = OutputStyleOption.Disabled)
    (hcal : env.mean_shell_spawning_time options.shell options.output_style options.show_output =
      Except.ok t)
    (hprep : prepare_count_mismatch options commands = false)
    (hw : ∀ l, env.write_results l = Except.ok ())
    (hlen : rs.length = commands.length)
    (hrb : ∀ i, i < commands.length →
      env.run_benchmark i (commands.getD i ("")) t options =
        Except.ok (rs.getD i (mkResult ("") 0))) :
    run_benchmarks_and_print_comparison env commands options =
      (Event.calibrate t :: runTrace t 0 [] commands rs, Except.ok ()) ∧
    exportsOf (run_benchmarks_and_print_comparison env commands options).1 =
      (List.range commands.length).map (fun k => rs.take (k + 1)) ∧
    (∀ (env2 : Env) (commands2 : List String),
      ∀ e ∈ (run_benchmarks_and_print_comparison env2 commands2 options).1,
        isPrint e = false) := by
  have hrb0 : ∀ i, i < commands.length →
      env.run_benchmark (0 + i) (commands.getD i ("")) t options =
        Except.ok (rs.getD i (mkResult ("") 0)) := by
    intro i hi
    rw [Nat.zero_add]
    exact hrb i hi
  have hbl := benchLoop_ok env options t hw commands rs 0 [] [Event.calibrate t] hlen hrb0
  have hrun : run_benchmarks_and_print_comparison env commands options =
      (Event.calibrate t :: runTrace t 0 [] commands rs, Except.ok ()) := by
    simp only [run_benchmarks_and_print_comparison, hcal, hprep, Bool.false_eq_true, if_false,
      hbl, List.nil_append]
    rw [if_neg (by simp [hstyle])]
    simp
  refine ⟨hrun, ?_, ?_⟩
  · rw [hrun]
    show exportsOf (Event.calibrate t :: _) = _
    rw [show ∀ l, exportsOf (Event.calibrate t :: l) = exportsOf l from fun l => by
      simp [exportsOf]]
    rw [exportsOf_runTrace t commands rs 0 [] hlen]
    simp
  · intro env2 commands2 e he
    cases hcal2 : env2.mean_shell_spawning_time options.shell options.output_style
        options.show_output with
    | error e2 =>
      simp only [run_benchmarks_and_print_comparison, hcal2] at he
      exact absurd he (List.not_mem_nil e)
    | ok t2 =>
      simp only [run_benchmarks_and_print_comparison, hcal2] at he
      by_cases hpm : prepare_count_mismatch options commands2
      · rw [if_pos hpm] at he
        rcases List.mem_singleton.mp he with rfl
        rfl
      · rw [if_neg hpm] at he
        obtain ⟨fresh, hsh, hfr⟩ := benchLoop_trace_shape env2 options t2 commands2 0 []
          [Event.calibrate t2]
        rcases hbl2 : benchLoop env2 options t2 0 commands2 [] [Event.calibrate t2] with ⟨tr, res⟩
        rw [hbl2] at hsh he
        simp only at hsh
        cases res with
        | error e3 =>
          simp only at he
          rw [hsh] at he
          rcases List.mem_append.mp he with he | he
          · rcases List.mem_singleton.mp he with rfl
            rfl
          · rcases hfr e he with ⟨n, c, rfl⟩ | ⟨rs2, rfl⟩ <;> rfl
        | ok timing =>
          simp only at he
          rw [if_neg (by simp [hstyle])] at he
          rw [hsh] at he
          rcases List.mem_append.mp he with he | he
          · rcases List.mem_singleton.mp he with rfl
            rfl
          · rcases hfr e he with ⟨n, c, rfl⟩ | ⟨rs2, rfl⟩ <;> rfl

/-- Witness for C10 with the all-succeeding environment, two commands and
disabled output. -/
theorem disabled_style_suppresses_comparison_witness :
    optsDisabled.output_style = OutputStyleOption.Disabled ∧
    (okEnv.mean_shell_spawning_time optsDisabled.shell optsDisabled.output_style
      optsDisabled.show_output = Except.ok (1 / 100)) ∧
    prepare_count_mismatch optsDisabled [("a"), ("b")] = false ∧
    okResults.length = ([("a"), ("b")] : List String).length ∧
    (run_benchmarks_and_print_comparison okEnv [("a"), ("b")] optsDisabled =
      (Event.calibrate (1 / 100) :: runTrace (1 / 100) 0 [] [("a"), ("b")] okResults,
        Except.ok ()) ∧
     exportsOf (run_benchmarks_and_print_comparison okEnv [("a"), ("b")] optsDisabled).1 =
      (List.range ([("a"), ("b")] : List String).length).map
        (fun k => okResults.take (k + 1)) ∧
     (∀ (env2 : Env) (commands2 : List String),
       ∀ e ∈ (run_benchmarks_and_print_comparison env2 commands2 optsDisabled).1,
         isPrint e = false)) :=
  ⟨rfl, rfl, rfl, rfl,
    disabled_style_suppresses_comparison okEnv [("a"), ("b")] optsDisabled (1 / 100) okResults
      rfl rfl rfl (fun _ => rfl) rfl
      (by
        intro i hi
        rcases i with _ | _ | n
        · rfl
        · rfl
        · simp at hi
          omega)⟩

/-- If every command before relative index `i` benchmarks successfully and
the benchmark of command `i` fails, the loop stops with that error, and no
benchmark-runner call with an index beyond `num + i` is recorded beyond the
incoming trace. -/
theorem benchLoop_err (env : Env) (options : Options) (t : ℚ)
    (hw : ∀ l, env.write_results l = Except.ok ()) :
    ∀ (cmds : List String) (i : Nat) (e : HfError) (num : Nat)
      (acc : List BenchmarkResult) (tr : List Event),
      i < cmds.length →
      (∀ k, k < i → ∃ r, env.run_benchmark (num + k) (cmds.getD k ("")) t options =
        Except.ok r) →
      env.run_benchmark (num + i) (cmds.getD i ("")) t options = Except.error e →
      (benchLoop env options t num cmds acc tr).2 = Except.error e ∧
      ∀ j c tc, num + i < j →
        Event.runBenchmark j c tc ∈ (benchLoop env options t num cmds acc tr).1 →
        Event.runBenchmark j c tc ∈ tr := by
  intro cmds
  induction cmds with
  | nil =>
    intro i e num acc tr hi
    simp at hi
  | cons cmd rest ih =>
    intro i e num acc tr hi hok herr
    cases i with
    | zero =>
      simp only [List.getD_cons_zero, Nat.add_zero] at herr
      refine ⟨?_, ?_⟩
      · simp only [benchLoop, herr]
      · intro j c tc hj hmem
        simp only [benchLoop, herr] at hmem
        rcases List.mem_append.mp hmem with hmem | hmem
        · exact hmem
        · exfalso
          rcases List.mem_singleton.mp hmem with heq
          simp only [Event.runBenchmark.injEq] at heq
          obtain ⟨h1, -, -⟩ := heq
          omega
    | succ i2 =>
      obtain ⟨r0, h0⟩ := hok 0 (Nat.succ_pos i2)
      simp only [List.getD_cons_zero, Nat.add_zero] at h0
      have hok2 : ∀ k, k < i2 →
          ∃ r, env.run_benchmark (num + 1 + k) (rest.getD k ("")) t options = Except.ok r := by
        intro k hk
        obtain ⟨r, hr⟩ := hok (k + 1) (Nat.succ_lt_succ hk)
        simp only [List.getD_cons_succ] at hr
        refine ⟨r, ?_⟩
        have h2 : num + (k + 1) = num + 1 + k := by omega
        rwa [h2] at hr
      have herr2 : env.run_benchmark (num + 1 + i2) (rest.getD i2 ("")) t options =
          Except.error e := by
        simp only [List.getD_cons_succ] at herr
        have h2 : num + (i2 + 1) = num + 1 + i2 := by omega
        rwa [h2] at herr
      have hi2 : i2 < rest.length := by simpa using Nat.lt_of_succ_lt_succ hi
      obtain ⟨ih1, ih2⟩ := ih i2 e (num + 1) (acc ++ [r0])
        (tr ++ [Event.runBenchmark num cmd t, Event.exportResults (acc ++ [r0])]) hi2 hok2 herr2
      refine ⟨?_, ?_⟩
      · simp only [benchLoop, h0, hw]
        exact ih1
      · intro j c tc hj hmem
        simp only [benchLoop, h0, hw] at hmem
        have hj2 : num + 1 + i2 < j := by omega
        have hmem2 := ih2 j c tc hj2 hmem
        rcases List.mem_append.mp hmem2 with hmem3 | hmem3
        · exact hmem3
        · exfalso
          rcases List.mem_cons.mp hmem3 with heq | hmem4
          · simp only [Event.runBenchmark.injEq] at heq
            obtain ⟨h1, -, -⟩ := heq
            omega
          · rcases List.mem_singleton.mp hmem4 with heq
            exact Event.noConfusion heq

/-- C1 (amended): the `?` on `run_benchmark` aborts the whole run — when
the benchmark of command `i` fails (all earlier ones having succeeded), the
failing command's error becomes the run's outcome, no later command is
ever benchmarked, and no comparison is printed. -/
theorem failed_benchmark_stops_subsequent_commands (env : Env) (commands : List String)
    (options : Options) (t : ℚ) (i : Nat) (e : HfError)
    (hcal : env.mean_shell_spawning_time options.shell options.output_style options.show_output =
      Except.ok t)
    (hprep : prepare_count_mismatch options commands = false)
    (hw : ∀ l, env.write_results l = Except.ok ())
    (hi : i < commands.length)
    (hok : ∀ k, k < i →
      ∃ r, env.run_benchmark k (commands.getD k ("")) t options = Except.ok r)
    (herr : env.run_benchmark i (commands.getD i ("")) t options = Except.error e) :
    (run_benchmarks_and_print_comparison env commands options).2 = Except.error e ∧
    (∀ j c tc, i < j → Event.runBenchmark j c tc ∉
      (run_benchmarks_and_print_comparison env commands options).1) ∧
    (∀ o, Event.printComparison o ∉
      (run_benchmarks_and_print_comparison env commands options).1) := by
  have hok0 : ∀ k, k < i →
      ∃ r, env.run_benchmark (0 + k) (commands.getD k ("")) t options = Except.ok r := by
    intro k hk
    rw [Nat.zero_add]
    exact hok k hk
  have herr0 : env.run_benchmark (0 + i) (commands.getD i ("")) t options = Except.error e := by
    rw [Nat.zero_add]
    exact herr
  obtain ⟨he1, he2⟩ := benchLoop_err env options t hw commands i e 0 [] [Event.calibrate t]
    hi hok0 herr0
  obtain ⟨fresh, hsh, hfr⟩ :=
    benchLoop_trace_shape env options t commands 0 [] [Event.calibrate t]
  rcases hbl : benchLoop env options t 0 commands [] [Event.calibrate t] with ⟨tr, res⟩
  rw [hbl] at he1 he2 hsh
  simp only at he1 he2 hsh
  subst he1
  have hrun : run_benchmarks_and_print_comparison env commands options =
      (tr, Except.error e) := by
    simp only [run_benchmarks_and_print_comparison, hcal, hprep, Bool.false_eq_true, if_false,
      hbl]
  rw [hrun]
  refine ⟨rfl, ?_, ?_⟩
  · intro j c tc hj hmem
    have := he2 j c tc (by omega) hmem
    rcases List.mem_singleton.mp this with heq
    exact Event.noConfusion heq
  · intro o hmem
    rw [hsh] at hmem
    rcases List.mem_append.mp hmem with hmem | hmem
    · rcases List.mem_singleton.mp hmem with heq
      exact Event.noConfusion heq
    · rcases hfr _ hmem with ⟨n, c, heq⟩ | ⟨rs2, heq⟩
      · exact Event.noConfusion heq
      · exact Event.noConfusion heq

/-- Witness for the amended C1 at the concrete environment whose first
command fails. -/
theorem failed_benchmark_stops_subsequent_commands_witness :
    0 < ([("a"), ("b")] : List String).length ∧
    failFirstEnv.run_benchmark 0 (([("a"), ("b")] : List String).getD 0 ("")) (1 / 100)
      optsFull = Except.error (HfError.external ("command failed")) ∧
    ((run_benchmarks_and_print_comparison failFirstEnv [("a"), ("b")] optsFull).2 =
      Except.error (HfError.external ("command failed")) ∧
    (∀ j c tc, 0 < j → Event.runBenchmark j c tc ∉
      (run_benchmarks_and_print_comparison failFirstEnv [("a"), ("b")] optsFull).1) ∧
    (∀ o, Event.printComparison o ∉
      (run_benchmarks_and_print_comparison failFirstEnv [("a"), ("b")] optsFull).1)) :=
  ⟨by decide, rfl,
    failed_benchmark_stops_subsequent_commands failFirstEnv [("a"), ("b")] optsFull (1 / 100)
      0 (HfError.external ("command failed")) rfl rfl (fun _ => rfl) (by decide)
      (fun k hk => absurd hk (Nat.not_lt_zero k)) rfl⟩

/-- C1 as stated is refuted on the code: in this concrete two-command run
whose first benchmark fails, the second command is never benchmarked (its
benchmark-runner call is absent from the trace) and the run aborts with the
first command's error, instead of proceeding with the remaining commands. -/
theorem subsequent_commands_proceed_counterexample :
    (run_benchmarks_and_print_comparison failFirstEnv [("a"), ("b")] optsFull).1 =
      [Event.calibrate (1 / 100), Event.runBenchmark 0 ("a") (1 / 100)] ∧
    (∀ c tc, Event.runBenchmark 1 c tc ∉
      (run_benchmarks_and_print_comparison failFirstEnv [("a"), ("b")] optsFull).1) ∧
    (run_benchmarks_and_print_comparison failFirstEnv [("a"), ("b")] optsFull).2 =
      Except.error (HfError.external ("command failed")) := by
  refine ⟨rfl, ?_, rfl⟩
  intro c tc hmem
  have htr : (run_benchmarks_and_print_comparison failFirstEnv [("a"), ("b")] optsFull).1 =
      [Event.calibrate (1 / 100), Event.runBenchmark 0 ("a") (1 / 100)] := rfl
  rw [htr] at hmem
  rcases List.mem_cons.mp hmem with heq | hmem
  · exact Event.noConfusion heq
  · rcases List.mem_singleton.mp hmem with heq
    simp only [Event.runBenchmark.injEq] at heq
    obtain ⟨h1, -, -⟩ := heq
    exact Nat.noConfusion h1
